import Mathlib

/-!
A shallow embedding of the Gobblet-Gobblers tic-tac-toe rules engine and
bot AI of `script.js`, together with theorems checking the repository's
specification against it.

Representation notes.
* A cell stack is a `List Piece` with the TOP of the stack at the HEAD of
  the list; `push` is `cons` and `pop` is `tail`, mirroring `Array.push` /
  `Array.pop` which operate on the end of a JS array (the JS top is
  `stack[stack.length - 1]`, our `head?`).
* JS numbers used for inventory counts are embedded as `ℤ` (the code
  compares with `<= 0` and decrements, so `ℕ` truncation would be
  unfaithful).
* Minimax scores, which in JS range over numbers together with
  `-Infinity` / `Infinity`, are embedded as `WithBot (WithTop ℤ)`.
-/

/-- A player marker, `"X"` or `"O"` in the source. -/
inductive Player where
  | X
  | O
deriving DecidableEq, Repr, Fintype

/-- A piece size, one of `"small"`, `"medium"`, `"large"` in the source. -/
inductive Size where
  | small
  | medium
  | large
deriving DecidableEq, Repr, Fintype

/-- A piece on the board: `{ player, size }` objects in the source. -/
structure Piece where
  player : Player
  size : Size
deriving DecidableEq, Repr

/-- `sizeOrder.indexOf(size)` for `sizeOrder = ["small","medium","large"]`:
the rank of a size.  The result is an integer because an absent top piece
ranks as `-1` in `canPlace`. -/
def sizeRank : Size → ℤ
  | .small => 0
  | .medium => 1
  | .large => 2

/-- The scanning order of sizes used by the move generator
(`const sizeOrder = ["small","medium","large"]`). -/
def sizeOrder : List Size := [.small, .medium, .large]

/-- The mutable game state of `script.js`: the 9 cell stacks (`board`) and
the per-player remaining inventory counts (`piecesLeft`). -/
@[ext]
structure GameState where
  board : Fin 9 → List Piece
  piecesLeft : Player → Size → ℤ
deriving DecidableEq

/-- The initial state: all stacks empty, every count 2
(`board = Array(9).fill(null).map(() => [])`,
`piecesLeft = { X:{small:2,...}, O:{...} }`). -/
def initialState : GameState :=
  { board := fun _ => []
    piecesLeft := fun _ _ => 2 }

/-- The rank of the visible (top) piece of a cell, `-1` if the cell is
empty: the `topVal` computation inside `canPlace`. -/
def topVal (st : GameState) (index : Fin 9) : ℤ :=
  match (st.board index).head? with
  | some top => sizeRank top.size
  | none => -1

/-- `canPlace(index, player, size, isMove)`: legality of landing a piece of
`size` on cell `index`, consulting the inventory only when `isMove` is
false. -/
def canPlace (st : GameState) (index : Fin 9) (player : Player) (size : Size)
    (isMove : Bool) : Bool :=
  let newVal := sizeRank size
  if newVal ≤ topVal st index then false
  else if !isMove && st.piecesLeft player size ≤ 0 then false
  else true

/-- The 8 win lines of `checkWinner` / `detectWinnerPlayer`, in source
order: 3 rows, 3 columns, 2 diagonals. -/
def winLines : List (Fin 9 × Fin 9 × Fin 9) :=
  [(0,1,2),(3,4,5),(6,7,8),(0,3,6),(1,4,7),(2,5,8),(0,4,8),(2,4,6)]

/-- `checkWinner()`: true iff some win line has all three cells non-empty
with the three top pieces owned by the same player. -/
def checkWinner (st : GameState) : Bool :=
  winLines.any fun l =>
    match (st.board l.1).head?, (st.board l.2.1).head?, (st.board l.2.2).head? with
    | some A, some B, some C => decide (A.player = B.player ∧ B.player = C.player)
    | _, _, _ => false

/-- `detectWinnerPlayer()`: the owner of the first winning line, if any. -/
def detectWinnerPlayer (st : GameState) : Option Player :=
  winLines.findSome? fun l =>
    match (st.board l.1).head?, (st.board l.2.1).head?, (st.board l.2.2).head? with
    | some A, some B, some C =>
        if A.player = B.player ∧ B.player = C.player then some A.player else none
    | _, _, _ => none

/-- A bot move: `{type:"place", index, size}` or `{type:"move", from, to, size}`
in the source (the relocation also records the moved top piece's size). -/
inductive Move where
  | place (index : Fin 9) (size : Size)
  | move (src : Fin 9) (dst : Fin 9) (size : Size)
deriving DecidableEq, Repr

/-- `generateAllMoves(player)`: placements (sizes small → medium → large,
cells 0 → 8) followed by relocations (source 0 → 8, destination 0 → 8
skipping the source). -/
def generateAllMoves (st : GameState) (player : Player) : List Move :=
  (sizeOrder.flatMap fun s =>
    if 0 < st.piecesLeft player s then
      (List.finRange 9).filterMap fun i =>
        if canPlace st i player s false = true then some (.place i s) else none
    else []) ++
  (List.finRange 9).flatMap fun src =>
    match (st.board src).head? with
    | none => []
    | some top =>
      if top.player ≠ player then []
      else
        (List.finRange 9).filterMap fun dst =>
          if dst ≠ src ∧ canPlace st dst player top.size true = true then
            some (.move src dst top.size)
          else none

/-- `applyMove(m, player)`: a placement pushes a fresh piece and decrements
the inventory; a relocation pops the source stack and pushes the popped
piece onto the destination stack.  Popping an empty source (a caller
contract violation, spec §7(c): every caller applies generated moves only,
whose source stack is non-empty) is embedded as leaving the state
unchanged. -/
def applyMove (st : GameState) (m : Move) (player : Player) : GameState :=
  match m with
  | .place index size =>
      { board := Function.update st.board index
          ({ player := player, size := size } :: st.board index)
        piecesLeft := fun p' s' =>
          if p' = player ∧ s' = size then st.piecesLeft p' s' - 1
          else st.piecesLeft p' s' }
  | .move src dst _ =>
      match st.board src with
      | [] => st
      | mv :: rest =>
          let b1 := Function.update st.board src rest
          { st with board := Function.update b1 dst (mv :: b1 dst) }

/-- `undoMoveGeneric(m, player)`: exact inverse shape of `applyMove` — a
placement is undone by popping the destination and re-incrementing the
inventory; a relocation is undone by popping the destination and pushing
the popped piece back onto the source. -/
def undoMoveGeneric (st : GameState) (m : Move) (player : Player) : GameState :=
  match m with
  | .place index size =>
      { board := Function.update st.board index (st.board index).tail
        piecesLeft := fun p' s' =>
          if p' = player ∧ s' = size then st.piecesLeft p' s' + 1
          else st.piecesLeft p' s' }
  | .move src dst _ =>
      match st.board dst with
      | [] => st
      | mv :: rest =>
          let b1 := Function.update st.board dst rest
          { st with board := Function.update b1 src (mv :: b1 src) }

/-- `findWinningMoveGeneric(player)`: the first generated move after which
`checkWinner()` holds (applied and undone in the source; the pure embedding
evaluates the winner on the applied state). -/
def findWinningMoveGeneric (st : GameState) (player : Player) : Option Move :=
  (generateAllMoves st player).find? fun m => checkWinner (applyMove st m player)

/-- `bot === "O" ? "X" : "O"`: the opponent of a player. -/
def opponentOf (bot : Player) : Player :=
  if bot = Player.O then Player.X else Player.O

/-- `findBlockingMoveGeneric(bot)`: `none` when the opponent has no
immediate winning move; otherwise the first bot move after which the
opponent no longer has a winning move. -/
def findBlockingMoveGeneric (st : GameState) (bot : Player) : Option Move :=
  let opponent := opponentOf bot
  match findWinningMoveGeneric st opponent with
  | none => none
  | some _ =>
      (generateAllMoves st bot).find? fun m =>
        (findWinningMoveGeneric (applyMove st m bot) opponent).isNone

/-- JS minimax scores: numbers together with `-Infinity` (`⊥`) and
`Infinity` (`⊤`). -/
abbrev Score := WithBot (WithTop ℤ)

/-- A finite score. -/
def Score.ofInt (n : ℤ) : Score := ((n : WithTop ℤ) : Score)

/-- The running state of the alpha-beta loop inside `minimax`: the best
score so far, the current `alpha` and `beta`, and whether the `break` on
`beta <= alpha` has fired. -/
structure ABAcc where
  best : Score
  alpha : Score
  beta : Score
  stop : Bool
deriving DecidableEq

/-- One iteration of the `for (let m of moves)` loop of `minimax`, given
the recursive score of the child state: update the best score and
alpha/beta, then set `stop` when `beta <= alpha` (the `break`). -/
def abStep (isMax : Bool) (acc : ABAcc) (score : Score) : ABAcc :=
  let best := if isMax then max acc.best score else min acc.best score
  let alpha := if isMax then max acc.alpha score else acc.alpha
  let beta := if isMax then acc.beta else min acc.beta score
  { best := best, alpha := alpha, beta := beta, stop := decide (beta ≤ alpha) }

/-- `minimax(depth, isMax, bot, human, alpha, beta, limit)`: depth-bounded
alpha-beta search.  Base cases in source order: bot win (`100 - depth`),
human win (`-100 + depth`), horizon (`0`), no legal move (`0`); otherwise
fold the alpha-beta loop over the side-to-move's generated moves (the
`break` is embedded as the `stop` flag skipping the remaining moves). -/
def minimax (st : GameState) (depth : ℕ) (isMax : Bool) (bot human : Player)
    (alpha beta : Score) (limit : ℕ) : Score :=
  let winner := detectWinnerPlayer st
  if winner = some bot then Score.ofInt (100 - depth)
  else if winner = some human then Score.ofInt (-100 + depth)
  else if h : depth ≥ limit then Score.ofInt 0
  else
    let player := if isMax then bot else human
    let moves := generateAllMoves st player
    if moves = [] then Score.ofInt 0
    else
      (moves.foldl (fun (acc : ABAcc) m =>
        if acc.stop then acc
        else
          abStep isMax acc
            (minimax (applyMove st m player) (depth + 1) (!isMax) bot human
              acc.alpha acc.beta limit))
        { best := if isMax then (⊥ : Score) else ⊤, alpha := alpha, beta := beta,
          stop := false }).best
termination_by limit - depth
decreasing_by omega

/-- The one-ply-ahead evaluation used by `minimaxBestMove`: apply a
candidate bot move, then run `minimax(1, false, bot, opponent, -∞, ∞, 4)`. -/
def evalMove (st : GameState) (bot : Player) (m : Move) : Score :=
  minimax (applyMove st m bot) 1 false bot (opponentOf bot) ⊥ ⊤ 4

/-- The body of `minimaxBestMove`'s loop: `if (score > bestScore)` replace
the best score and best move, else keep the accumulator. -/
def bestStep (eval : Move → Score) (acc : Score × Option Move) (m : Move) :
    Score × Option Move :=
  if acc.1 < eval m then (eval m, some m) else acc

/-- `minimaxBestMove(bot)`: fold over the bot's generated moves keeping the
candidate whose one-ply evaluation strictly exceeds the best so far
(`bestScore` starts at `-Infinity`, `bestMove` at `null`). -/
def minimaxBestMove (st : GameState) (bot : Player) : Option Move :=
  ((generateAllMoves st bot).foldl (bestStep (evalMove st bot))
    ((⊥ : Score), (none : Option Move))).2

/-- `moves[Math.floor(Math.random() * moves.length)]` with the random draw
abstracted as a natural number `rnd`: the element at index
`rnd % moves.length` (always `some` on a non-empty list). -/
def pickRandom (moves : List Move) (rnd : ℕ) : Option Move :=
  moves.get? (rnd % moves.length)

/-- The `difficulty === "medium"` branch of `botMove`'s selection cascade:
winning move, else blocking move, else random legal move. -/
def mediumChoice (st : GameState) (bot : Player) (rnd : ℕ) : Option Move :=
  match findWinningMoveGeneric st bot with
  | some m => some m
  | none =>
    match findBlockingMoveGeneric st bot with
    | some m => some m
    | none => pickRandom (generateAllMoves st bot) rnd

/-- The `difficulty === "hard"` branch of `botMove`'s selection cascade:
winning move, else blocking move, else random legal move. -/
def hardChoice (st : GameState) (bot : Player) (rnd : ℕ) : Option Move :=
  match findWinningMoveGeneric st bot with
  | some m => some m
  | none =>
    match findBlockingMoveGeneric st bot with
    | some m => some m
    | none => pickRandom (generateAllMoves st bot) rnd

/-- The four bot difficulty tiers selected by `difficultySelect` (the
source dispatches on the strings `"easy"`, `"medium"`, `"hard"`, and falls
through to minimax for the remaining tier). -/
inductive Difficulty where
  | easy
  | medium
  | hard
  | hardest
deriving DecidableEq, Repr

/-- The observable result of one handler invocation (`botMove` or
`handleCellClick`). -/
inductive TurnOutcome where
  /-- A move was applied and the game continues (`switchTurn`). -/
  | ongoing
  /-- A move was applied and `endGame` announced this winner. -/
  | win (p : Player)
  /-- `botMove` found no legal move and `endGame("เสมอ!")` declared a draw. -/
  | draw
  /-- The click was rejected or had no effect (early `return`). -/
  | noAction
  /-- The click selected a source cell for a relocation. -/
  | sourceSelected
  /-- The click cancelled the current selection (`cancelSelectAll`). -/
  | cancelled
  /-- No selection was active; the status prompt was shown. -/
  | prompt
  /-- Unreachable: the selection cascade produced no move although the
  generated move list was non-empty. -/
  | invalid
deriving DecidableEq, Repr

/-- `botMove()`: declare a draw when the bot has no generated move;
otherwise select a move by difficulty (easy = random, medium/hard =
win/block/random cascade, otherwise minimax with random fallback), apply
it, and report a bot win or continue. -/
def botMoveResult (st : GameState) (difficulty : Difficulty) (rnd : ℕ) :
    GameState × TurnOutcome :=
  let bot := Player.O
  let moves := generateAllMoves st bot
  if moves = [] then (st, .draw)
  else
    let chosen : Option Move :=
      match difficulty with
      | .easy => pickRandom moves rnd
      | .medium => mediumChoice st bot rnd
      | .hard => hardChoice st bot rnd
      | .hardest =>
        match minimaxBestMove st bot with
        | some m => some m
        | none => pickRandom moves rnd
    match chosen with
    | none => (st, .invalid)
    | some m =>
        let st' := applyMove st m bot
        if checkWinner st' then (st', .win bot) else (st', .ongoing)

/-- The state produced by one `handleCellClick` invocation: the game state
and the selection variables after the handler, and what happened. -/
structure ClickResult where
  state : GameState
  selectedSize : Option Size
  selectedFrom : Option (Fin 9)
  outcome : TurnOutcome
deriving DecidableEq

/-- `handleCellClick(index)` for the player `currentPlayer`, given the
selection variables `selectedSize` / `selectedFrom`: cancel on re-clicking
the selected source; select a source on clicking one's own top piece;
otherwise complete a relocation (when a source is selected) or a placement
(when a size is selected), checking the winner and switching the turn
(`switchTurn` clears both selections); otherwise show the prompt.  There is
no draw branch in this handler. -/
def handleCellClickStep (st : GameState) (currentPlayer : Player)
    (selectedSize : Option Size) (selectedFrom : Option (Fin 9))
    (index : Fin 9) : ClickResult :=
  if selectedFrom = some index then
    { state := st, selectedSize := none, selectedFrom := none, outcome := .cancelled }
  else if (match (st.board index).head? with
           | some top => decide (top.player = currentPlayer)
           | none => false) then
    { state := st, selectedSize := none, selectedFrom := some index,
      outcome := .sourceSelected }
  else
    match selectedFrom with
    | some src =>
      match (st.board src).head? with
      | none =>
          { state := st, selectedSize := selectedSize, selectedFrom := selectedFrom,
            outcome := .noAction }
      | some movingPiece =>
          if canPlace st index currentPlayer movingPiece.size true then
            let st' := applyMove st (.move src index movingPiece.size) currentPlayer
            if checkWinner st' then
              { state := st', selectedSize := selectedSize, selectedFrom := none,
                outcome := .win currentPlayer }
            else
              { state := st', selectedSize := none, selectedFrom := none,
                outcome := .ongoing }
          else
            { state := st, selectedSize := selectedSize, selectedFrom := selectedFrom,
              outcome := .noAction }
    | none =>
      match selectedSize with
      | some size =>
          if canPlace st index currentPlayer size false then
            let st' := applyMove st (.place index size) currentPlayer
            if checkWinner st' then
              { state := st', selectedSize := selectedSize, selectedFrom := none,
                outcome := .win currentPlayer }
            else
              { state := st', selectedSize := none, selectedFrom := none,
                outcome := .ongoing }
          else
            { state := st, selectedSize := selectedSize, selectedFrom := none,
              outcome := .noAction }
      | none =>
          { state := st, selectedSize := selectedSize, selectedFrom := none,
            outcome := .prompt }

/-- The maximum of a list of scores (`-Infinity` for the empty list). -/
def listMaxScore (l : List Score) : Score := l.foldr max ⊥

/-- The maximum attainable one-ply-ahead evaluation among the bot's
candidate moves (the spec's "maximum attainable score among one-ply-ahead
evaluations"). -/
def bestEval (st : GameState) (bot : Player) : Score :=
  listMaxScore ((generateAllMoves st bot).map (evalMove st bot))

/-- The first candidate move (in generation order) attaining the maximal
one-ply-ahead evaluation — the spec's "keep the candidate with the strictly
greatest score (first-found wins ties)". -/
def firstBestMove (st : GameState) (bot : Player) : Option Move :=
  (generateAllMoves st bot).find? fun m =>
    decide (evalMove st bot m = bestEval st bot)

/-- The placement enumeration as the spec words it (§4.3 / claim C6): for
each size in order small, medium, large and each cell 0–8, a `Place` is
included iff the player still has a piece of that size and `canPlace`
accepts — with the inventory condition stated per candidate instead of
hoisted out of the cell loop as the source writes it. -/
def specPlacements (st : GameState) (p : Player) : List Move :=
  sizeOrder.flatMap fun s =>
    (List.finRange 9).filterMap fun i =>
      if 0 < st.piecesLeft p s ∧ canPlace st i p s false = true then
        some (.place i s)
      else none

/-- The relocation enumeration as the spec words it (§4.3 / claim C6): for
each source cell 0–8 whose top piece belongs to the player, and each
destination 0–8 other than the source, a `Relocate` is included iff
`canPlace` accepts with the relocation flag. -/
def specRelocations (st : GameState) (p : Player) : List Move :=
  (List.finRange 9).flatMap fun src =>
    match (st.board src).head? with
    | some top =>
        if top.player = p then
          (List.finRange 9).filterMap fun dst =>
            if dst ≠ src ∧ canPlace st dst p top.size true = true then
              some (.move src dst top.size)
            else none
        else []
    | none => []

/-- A cell stack whose piece sizes are strictly increasing bottom-to-top:
with the top stored at the head, every element strictly out-ranks the one
below it. -/
def stackIncreasing (s : List Piece) : Prop :=
  List.Chain' (fun a b => sizeRank b.size < sizeRank a.size) s

instance (s : List Piece) : Decidable (stackIncreasing s) :=
  inferInstanceAs (Decidable (List.Chain' _ s))

/-- The states reachable from the fresh game state by legal moves: a step
applies any move produced by `generateAllMoves` for either player (every
move the click handler accepts for the human is also generated: placements
are guarded by the same `canPlace`, and a human relocation starts from a
cell topped by the mover's own piece and targets a different cell passing
`canPlace`). -/
inductive Reachable : GameState → Prop
  | init : Reachable initialState
  | step {st : GameState} {p : Player} {m : Move} :
      Reachable st → m ∈ generateAllMoves st p → Reachable (applyMove st m p)

/-- A state in which player X is to move but has no legal move: X's
inventory is exhausted and every cell is topped by an O piece. -/
def stuckX : GameState :=
  { board := fun _ => [⟨Player.O, Size.large⟩]
    piecesLeft := fun p _ => if p = Player.X then 0 else 2 }

/-- A state in which the bot (O) has no legal move: O's inventory is
exhausted and every cell is topped by an X piece.  Its `detectWinnerPlayer`
is `some X`. -/
def stuckO : GameState :=
  { board := fun _ => [⟨Player.X, Size.large⟩]
    piecesLeft := fun p _ => if p = Player.O then 0 else 2 }

/-- A state with a winning line for O (top pieces of cells 0,1,2). -/
def winO : GameState :=
  { board := fun i => if (i : ℕ) < 3 then [⟨Player.O, Size.small⟩] else []
    piecesLeft := fun _ _ => 1 }

/-- A winner-free state in which neither player has any legal move: the
tops alternate owners so no line is owned, every piece is large so nothing
can be covered, and both inventories are exhausted. -/
def blockedState : GameState :=
  { board := fun i =>
      if (i : ℕ) = 0 ∨ (i : ℕ) = 2 ∨ (i : ℕ) = 3 ∨ (i : ℕ) = 7 ∨ (i : ℕ) = 8 then
        [⟨Player.X, Size.large⟩]
      else [⟨Player.O, Size.large⟩]
    piecesLeft := fun _ _ => 0 }

/-- A state in which O has an immediate winning placement: O tops cells 0
and 1 and can place a small piece on the empty cell 2. -/
def nearWinO : GameState :=
  { board := fun i => if (i : ℕ) = 0 ∨ (i : ℕ) = 1 then [⟨Player.O, Size.small⟩] else []
    piecesLeft := fun _ _ => 1 }

/-! ## Helper lemmas -/

lemma canPlace_false_iff (st : GameState) (i : Fin 9) (p : Player) (s : Size) :
    canPlace st i p s false = true ↔
      topVal st i < sizeRank s ∧ 0 < st.piecesLeft p s := by
  unfold canPlace
  split_ifs <;> simp_all

lemma canPlace_true_iff (st : GameState) (i : Fin 9) (p : Player) (s : Size) :
    canPlace st i p s true = true ↔ topVal st i < sizeRank s := by
  unfold canPlace
  split_ifs <;> simp_all

lemma topVal_of_head {st : GameState} {i : Fin 9} {b : Piece}
    (hb : (st.board i).head? = some b) : topVal st i = sizeRank b.size := by
  simp [topVal, hb]

/-! ## C2: characterization of `canPlace` -/

/-- C2.  `canPlace` accepts iff the new size strictly out-ranks the cell's
top (rank `-1` when empty) and, only when the relocation flag is false, the
player still holds a piece of that size; with the flag set the inventory is
never consulted. -/
theorem canPlace_spec (st : GameState) (i : Fin 9) (p : Player) (s : Size) :
    (canPlace st i p s false = true ↔
      topVal st i < sizeRank s ∧ 0 < st.piecesLeft p s) ∧
    (canPlace st i p s true = true ↔ topVal st i < sizeRank s) :=
  ⟨canPlace_false_iff st i p s, canPlace_true_iff st i p s⟩

/-! ## C5: the win oracle -/

/-- C5.  `checkWinner` reports a winner iff some one of the 8 win lines has
all three cells non-empty with the three top pieces' owners pairwise
equal. -/
theorem checkWinner_spec (st : GameState) :
    checkWinner st = true ↔
      ∃ l ∈ winLines, ∃ A B C : Piece,
        (st.board l.1).head? = some A ∧ (st.board l.2.1).head? = some B ∧
        (st.board l.2.2).head? = some C ∧
        A.player = B.player ∧ A.player = C.player ∧ B.player = C.player := by
  unfold checkWinner
  rw [List.any_eq_true]
  constructor
  · rintro ⟨l, hl, hb⟩
    refine ⟨l, hl, ?_⟩
    rcases hA : (st.board l.1).head? with _ | A <;>
      rcases hB : (st.board l.2.1).head? with _ | B <;>
      rcases hC : (st.board l.2.2).head? with _ | C <;>
      rw [hA, hB, hC] at hb <;> simp_all
  · rintro ⟨l, hl, A, B, C, hA, hB, hC, h1, _, h3⟩
    exact ⟨l, hl, by rw [hA, hB, hC]; simp [h1, h3]⟩

/-! ## C10: agreement of the two win checks -/

lemma any_eq_findSome_isSome {α β : Type} (L : List α) (f : α → Bool)
    (g : α → Option β) (h : ∀ a, f a = (g a).isSome) :
    L.any f = (L.findSome? g).isSome := by
  induction L with
  | nil => simp
  | cons a L ih =>
    rw [List.any_cons, List.findSome?_cons]
    rcases hg : g a with _ | b
    · have : f a = false := by rw [h a, hg]; rfl
      simp [this, ih]
    · have : f a = true := by rw [h a, hg]; rfl
      simp [this]

/-- C10.  The boolean win check and the winner-returning win check agree:
`checkWinner` is true exactly when `detectWinnerPlayer`, scanning the same
8 lines in the same order, returns a player. -/
theorem checkWinner_eq_detect (st : GameState) :
    checkWinner st = (detectWinnerPlayer st).isSome := by
  unfold checkWinner detectWinnerPlayer
  apply any_eq_findSome_isSome
  intro l
  rcases hA : (st.board l.1).head? with _ | A <;>
    rcases hB : (st.board l.2.1).head? with _ | B <;>
    rcases hC : (st.board l.2.2).head? with _ | C <;> simp
  by_cases h : A.player = B.player ∧ B.player = C.player
  · simp [h]
  · simp [h]; tauto

lemma mem_generate_place {st : GameState} {p : Player} {i : Fin 9} {s : Size}
    (h : Move.place i s ∈ generateAllMoves st p) :
    0 < st.piecesLeft p s ∧ canPlace st i p s false = true := by
  unfold generateAllMoves at h
  rcases List.mem_append.1 h with h | h
  · rcases List.mem_flatMap.1 h with ⟨sz, _, hm⟩
    split at hm
    · rcases List.mem_filterMap.1 hm with ⟨j, _, hj⟩
      split at hj
      · simp only [Option.some.injEq, Move.place.injEq] at hj
        obtain ⟨rfl, rfl⟩ := hj
        constructor <;> assumption
      · simp at hj
    · simp at hm
  · exfalso
    rcases List.mem_flatMap.1 h with ⟨src, _, hm⟩
    split at hm
    · simp at hm
    · split at hm
      · simp at hm
      · rcases List.mem_filterMap.1 hm with ⟨dst, _, hd⟩
        split at hd <;> simp at hd

lemma mem_generate_move {st : GameState} {p : Player} {f t : Fin 9} {s : Size}
    (h : Move.move f t s ∈ generateAllMoves st p) :
    ∃ top rest, st.board f = top :: rest ∧ top.player = p ∧ top.size = s ∧
      t ≠ f ∧ canPlace st t p s true = true := by
  unfold generateAllMoves at h
  rcases List.mem_append.1 h with h | h
  · exfalso
    rcases List.mem_flatMap.1 h with ⟨sz, _, hm⟩
    split at hm
    · rcases List.mem_filterMap.1 hm with ⟨j, _, hj⟩
      split at hj <;> simp at hj
    · simp at hm
  · rcases List.mem_flatMap.1 h with ⟨src, _, hm⟩
    split at hm
    · simp at hm
    · rename_i top hhead
      split at hm
      · simp at hm
      · rename_i hown
        rcases List.mem_filterMap.1 hm with ⟨dst, _, hd⟩
        split at hd
        · rename_i hcond
          simp only [Option.some.injEq, Move.move.injEq] at hd
          obtain ⟨rfl, rfl, rfl⟩ := hd
          rcases hb : st.board src with _ | ⟨b, rest⟩
          · rw [hb] at hhead; simp at hhead
          · rw [hb] at hhead
            simp only [List.head?_cons, Option.some.injEq] at hhead
            subst hhead
            exact ⟨b, rest, rfl, not_not.1 hown, rfl, hcond.1, hcond.2⟩
        · simp at hd

/-! ## C1: apply followed by undo restores the state -/

/-- C1.  Applying any generated (legal) move and immediately undoing it
restores the board and both inventories exactly: for a placement the undo
pops the pushed piece and re-increments the decremented count, for a
relocation the undo pops the destination and pushes the piece back onto its
source. -/
theorem apply_undo_inverse (st : GameState) (m : Move) (p : Player)
    (h : m ∈ generateAllMoves st p) :
    undoMoveGeneric (applyMove st m p) m p = st := by
  cases m with
  | place i s =>
    clear h
    apply GameState.ext
    · funext j
      by_cases hj : j = i
      · subst hj; simp [applyMove, undoMoveGeneric]
      · simp [applyMove, undoMoveGeneric, Function.update_noteq hj]
    · funext q r
      by_cases hq : q = p ∧ r = s
      · simp [applyMove, undoMoveGeneric, hq]
      · simp [applyMove, undoMoveGeneric, hq]
  | move src dst s =>
    obtain ⟨top, rest, hsrc, -, -, hne, -⟩ := mem_generate_move h
    have happly : applyMove st (Move.move src dst s) p =
        GameState.mk
          (Function.update (Function.update st.board src rest) dst
            (top :: (Function.update st.board src rest) dst))
          st.piecesLeft := by
      simp only [applyMove, hsrc]
    rw [happly]
    have hdst : (Function.update (Function.update st.board src rest) dst
        (top :: (Function.update st.board src rest) dst)) dst =
        top :: (Function.update st.board src rest) dst := Function.update_same _ _ _
    simp only [undoMoveGeneric, hdst]
    apply GameState.ext
    · funext j
      by_cases hjs : j = src
      · subst hjs
        simp [Function.update_same, Function.update_noteq (Ne.symm hne), ← hsrc]
      · by_cases hjd : j = dst
        · subst hjd
          simp [Function.update_noteq hne, Function.update_same]
        · simp [Function.update_noteq hjs, Function.update_noteq hjd]
    · rfl

/-! ## C6: the move generator -/

/-- C6.  The generated move list is exactly the spec's enumeration —
placements by size small, medium, large over cells 0–8 (with the
per-candidate inventory condition), then relocations by source 0–8 and
destination 0–8 skipping the source — and in particular it contains no
relocation whose source equals its destination and no placement of a size
whose remaining count is not positive. -/
theorem generateMoves_spec (st : GameState) (p : Player) :
    generateAllMoves st p = specPlacements st p ++ specRelocations st p ∧
    (∀ src dst s, Move.move src dst s ∈ generateAllMoves st p → src ≠ dst) ∧
    (∀ i s, Move.place i s ∈ generateAllMoves st p → 0 < st.piecesLeft p s) := by
  refine ⟨?_, ?_, ?_⟩
  · unfold generateAllMoves specPlacements specRelocations
    congr 1
    · congr 1
      funext s
      by_cases hpos : 0 < st.piecesLeft p s
      · rw [if_pos hpos]
        congr 1
        funext i
        simp [hpos]
      · rw [if_neg hpos]
        symm
        rw [List.filterMap_eq_nil_iff]
        intro i _
        rw [if_neg]
        intro hc
        exact hpos hc.1
    · congr 1
      funext src
      rcases hh : (st.board src).head? with _ | top
      · simp
      · by_cases hp : top.player = p
        · simp [hp]
        · simp [hp]
  · intro src dst s hm
    obtain ⟨-, -, -, -, -, hne, -⟩ := mem_generate_move hm
    exact Ne.symm hne
  · intro i s hm
    exact (mem_generate_place hm).1

/-! ## C7: reachable stacks are strictly increasing bottom-to-top -/

/-- C7.  In every state reachable from the initial state by legal
(generated) moves, every cell stack's sizes are strictly increasing
bottom-to-top: each push is guarded by `canPlace`'s strict-rank check, so
both placements and relocations preserve the invariant. -/
theorem reachable_stackIncreasing (st : GameState) (h : Reachable st) :
    ∀ i, stackIncreasing (st.board i) := by
  induction h with
  | init =>
    intro i
    simp [initialState, stackIncreasing]
  | @step st' p m hr hmem ih =>
    intro i
    cases m with
    | place idx s =>
      obtain ⟨-, hcan⟩ := mem_generate_place hmem
      by_cases hi : i = idx
      · subst hi
        have hb : (applyMove st' (Move.place i s) p).board i =
            { player := p, size := s } :: st'.board i := by
          simp [applyMove]
        rw [hb, stackIncreasing, List.chain'_cons']
        refine ⟨?_, ih i⟩
        intro b hmem'
        have hb' : (st'.board i).head? = some b := Option.mem_def.mp hmem'
        have hrank := (canPlace_false_iff st' i p s).1 hcan
        rw [topVal_of_head hb'] at hrank
        exact hrank.1
      · have hb : (applyMove st' (Move.place idx s) p).board i = st'.board i := by
          simp [applyMove, Function.update_noteq hi]
        rw [hb]
        exact ih i
    | move src dst s =>
      obtain ⟨top, rest, hsrc, -, hsize, hne, hcan⟩ := mem_generate_move hmem
      have happly : (applyMove st' (Move.move src dst s) p).board =
          Function.update (Function.update st'.board src rest) dst
            (top :: (Function.update st'.board src rest) dst) := by
        simp [applyMove, hsrc]
      rw [happly]
      by_cases hid : i = dst
      · subst hid
        rw [Function.update_same, Function.update_noteq hne]
        rw [stackIncreasing, List.chain'_cons']
        refine ⟨?_, ih i⟩
        intro b hmem'
        have hb' : (st'.board i).head? = some b := Option.mem_def.mp hmem'
        have hrank := (canPlace_true_iff st' i p s).1 hcan
        rw [topVal_of_head hb'] at hrank
        rw [hsize]
        exact hrank
      · rw [Function.update_noteq hid]
        by_cases his : i = src
        · subst his
          rw [Function.update_same]
          have hall := ih i
          rw [hsrc] at hall
          exact (List.chain'_cons'.mp hall).2
        · rw [Function.update_noteq his]
          exact ih i

/-- C7 witness: the invariant instantiated at a concrete reachable state —
placing a small X piece on the centre of the fresh board. -/
theorem reachable_stackIncreasing_witness :
    stackIncreasing ((applyMove initialState (Move.place 4 Size.small)
      Player.X).board 4) :=
  reachable_stackIncreasing _
    (Reachable.step Reachable.init (by decide)) 4

/-! ## C8: medium and hard tiers are the same strategy -/

/-- C8.  The medium and hard difficulty branches are the same function of
the game state (and of the abstracted random draw): both return the bot's
winning move if one exists, else a blocking move if one exists, else the
random pick among the legal moves. -/
theorem medium_eq_hard (st : GameState) (bot : Player) (rnd : ℕ) :
    mediumChoice st bot rnd = hardChoice st bot rnd ∧
    (∀ m, findWinningMoveGeneric st bot = some m →
      mediumChoice st bot rnd = some m) ∧
    (findWinningMoveGeneric st bot = none →
      ∀ m, findBlockingMoveGeneric st bot = some m →
        mediumChoice st bot rnd = some m) ∧
    (findWinningMoveGeneric st bot = none →
      findBlockingMoveGeneric st bot = none →
        mediumChoice st bot rnd = pickRandom (generateAllMoves st bot) rnd) := by
  refine ⟨rfl, ?_, ?_, ?_⟩
  · intro m hw
    simp [mediumChoice, hw]
  · intro hw m hb
    simp [mediumChoice, hw, hb]
  · intro hw hb
    simp [mediumChoice, hw, hb]

/-- C8 witness: at a concrete state with an immediate O win, the medium
branch picks that winning placement. -/
theorem medium_eq_hard_witness :
    findWinningMoveGeneric nearWinO Player.O = some (Move.place 2 Size.small) ∧
    mediumChoice nearWinO Player.O 0 = some (Move.place 2 Size.small) :=
  ⟨by decide, (medium_eq_hard nearWinO Player.O 0).2.1 _ (by decide)⟩

/-! ## C9: the draw condition is only detected on the bot's turn -/

/-- C9 counterexample: in a state where the human (X) is to move with no
legal move, a click does not produce a draw — the handler has no draw
branch, contradicting the claim that the no-move draw outcome arises for
whichever player is to move. -/
theorem stuck_human_click_not_draw :
    generateAllMoves stuckX Player.X = [] ∧
    (handleCellClickStep stuckX Player.X (some Size.small) none 0).outcome ≠
      TurnOutcome.draw ∧
    handleCellClickStep stuckX Player.X (some Size.small) none 0 =
      { state := stuckX, selectedSize := some Size.small, selectedFrom := none,
        outcome := TurnOutcome.noAction } := by
  refine ⟨by decide, by decide, by decide⟩

/-- C9 amended.  When the bot is to move and its generated move list is
empty, `botMove` declares a draw and applies no move; the human click
handler, by contrast, contains no draw check and never produces a draw
outcome, whatever the selection state and the clicked cell. -/
theorem draw_only_on_bot_turn (st : GameState) (d : Difficulty) (rnd : ℕ) :
    (generateAllMoves st Player.O = [] →
      botMoveResult st d rnd = (st, TurnOutcome.draw)) ∧
    (∀ cp ss sf i, (handleCellClickStep st cp ss sf i).outcome ≠
      TurnOutcome.draw) := by
  constructor
  · intro h
    simp [botMoveResult, h]
  · intro cp ss sf i
    unfold handleCellClickStep
    repeat' split
    all_goals try simp
    all_goals (split <;> simp)

/-- C9 witness: at a concrete state where the bot has no legal move,
`botMove` ends in a draw without touching the state. -/
theorem draw_only_on_bot_turn_witness :
    generateAllMoves stuckO Player.O = [] ∧
    botMoveResult stuckO Difficulty.easy 0 = (stuckO, TurnOutcome.draw) :=
  ⟨by decide, (draw_only_on_bot_turn stuckO Difficulty.easy 0).1 (by decide)⟩

/-! ## C3: minimax base cases -/

/-- C3.  `minimax` settles its base cases in this precedence order before
any recursion: a bot win returns `100 - depth`; otherwise a human win
returns `-100 + depth`; otherwise reaching the depth limit returns `0`;
otherwise a side to move without legal moves returns `0`. -/
theorem minimax_base_cases (st : GameState) (depth : ℕ) (isMax : Bool)
    (bot human : Player) (alpha beta : Score) (limit : ℕ) :
    (detectWinnerPlayer st = some bot →
      minimax st depth isMax bot human alpha beta limit =
        Score.ofInt (100 - depth)) ∧
    (detectWinnerPlayer st ≠ some bot → detectWinnerPlayer st = some human →
      minimax st depth isMax bot human alpha beta limit =
        Score.ofInt (-100 + depth)) ∧
    (detectWinnerPlayer st ≠ some bot → detectWinnerPlayer st ≠ some human →
      limit ≤ depth →
      minimax st depth isMax bot human alpha beta limit = Score.ofInt 0) ∧
    (detectWinnerPlayer st ≠ some bot → detectWinnerPlayer st ≠ some human →
      depth < limit → generateAllMoves st (if isMax then bot else human) = [] →
      minimax st depth isMax bot human alpha beta limit = Score.ofInt 0) := by
  refine ⟨?_, ?_, ?_, ?_⟩
  · intro h1
    unfold minimax
    simp [h1]
  · intro h1 h2
    have h1' : human ≠ bot := fun e => h1 (by rw [h2, e])
    unfold minimax
    simp [h2, h1']
  · intro h1 h2 h3
    unfold minimax
    simp [h1, h2, h3]
  · intro h1 h2 h3 h4
    unfold minimax
    simp [h1, h2, Nat.not_le.2 h3, h4]

/-- C3 witness: the four base cases at concrete states — a won line for O,
a won line for X, a blocked winner-free board past the horizon, and the
same board with no legal move below the horizon. -/
theorem minimax_base_cases_witness :
    (detectWinnerPlayer winO = some Player.O ∧
      minimax winO 2 true Player.O Player.X ⊥ ⊤ 4 = Score.ofInt (100 - 2)) ∧
    (detectWinnerPlayer stuckO = some Player.X ∧
      minimax stuckO 3 false Player.O Player.X ⊥ ⊤ 4 = Score.ofInt (-100 + 3)) ∧
    minimax blockedState 5 true Player.O Player.X ⊥ ⊤ 4 = Score.ofInt 0 ∧
    minimax blockedState 0 true Player.O Player.X ⊥ ⊤ 4 = Score.ofInt 0 :=
  ⟨⟨by decide,
      (minimax_base_cases winO 2 true Player.O Player.X ⊥ ⊤ 4).1 (by decide)⟩,
    ⟨by decide,
      (minimax_base_cases stuckO 3 false Player.O Player.X ⊥ ⊤ 4).2.1
        (by decide) (by decide)⟩,
    (minimax_base_cases blockedState 5 true Player.O Player.X ⊥ ⊤ 4).2.2.1
      (by decide) (by decide) (by decide),
    (minimax_base_cases blockedState 0 true Player.O Player.X ⊥ ⊤ 4).2.2.2
      (by decide) (by decide) (by decide) (by decide)⟩

/-! ## C4: the minimax driver -/

lemma Score.ofInt_ne_bot (n : ℤ) : Score.ofInt n ≠ ⊥ := by
  unfold Score.ofInt
  exact WithBot.coe_ne_bot

lemma max_ne_bot_left {a b : Score} (h : a ≠ ⊥) : max a b ≠ ⊥ := by
  intro hmax
  exact h (le_bot_iff.mp (hmax ▸ le_max_left a b))

lemma min_ne_bot {a b : Score} (ha : a ≠ ⊥) (hb : b ≠ ⊥) : min a b ≠ ⊥ := by
  rcases min_choice a b with h | h <;> rw [h] <;> assumption

lemma foldl_preserve {α β : Type} {P : α → Prop} {f : α → β → α}
    (hf : ∀ a b, P a → P (f a b)) :
    ∀ (l : List β) (a : α), P a → P (l.foldl f a) := by
  intro l
  induction l with
  | nil => intro a ha; exact ha
  | cons x xs ih => intro a ha; exact ih _ (hf a x ha)

/-- `minimax` never evaluates to `-Infinity`: every base case is finite and
the alpha-beta loop folds at least one child score into the running best
before any `break` can fire. -/
lemma minimax_ne_bot_aux :
    ∀ (k : ℕ) (st : GameState) (depth : ℕ) (isMax : Bool) (bot human : Player)
      (alpha beta : Score) (limit : ℕ), limit - depth ≤ k →
      minimax st depth isMax bot human alpha beta limit ≠ ⊥ := by
  intro k
  induction k with
  | zero =>
    intro st depth isMax bot human alpha beta limit hk
    unfold minimax
    by_cases h1 : detectWinnerPlayer st = some bot
    · simp [h1, Score.ofInt_ne_bot]
    · by_cases h2 : detectWinnerPlayer st = some human
      · simp only [h2, if_neg h1]
        split <;> simp [Score.ofInt_ne_bot]
      · have h3 : depth ≥ limit := by omega
        simp [h1, h2, h3, Score.ofInt_ne_bot]
  | succ k ih =>
    intro st depth isMax bot human alpha beta limit hk
    by_cases h1 : detectWinnerPlayer st = some bot
    · unfold minimax
      simp [h1, Score.ofInt_ne_bot]
    by_cases h2 : detectWinnerPlayer st = some human
    · unfold minimax
      simp only [h2, if_neg h1]
      split <;> simp [Score.ofInt_ne_bot]
    by_cases h3 : depth ≥ limit
    · unfold minimax
      simp [h1, h2, h3, Score.ofInt_ne_bot]
    by_cases h4 : generateAllMoves st (if isMax then bot else human) = []
    · unfold minimax
      simp [h1, h2, h3, h4, Score.ofInt_ne_bot]
    have hrec : ∀ (m' : Move) (a b : Score),
        minimax (applyMove st m' (if isMax then bot else human)) (depth + 1)
          (!isMax) bot human a b limit ≠ ⊥ := by
      intro m' a b
      apply ih
      omega
    unfold minimax
    simp only [if_neg h1, if_neg h2, dif_neg h3, if_neg h4]
    rcases hmoves : generateAllMoves st (if isMax then bot else human) with _ | ⟨m, rest⟩
    · exact absurd hmoves h4
    rw [List.foldl_cons]
    apply foldl_preserve (P := fun acc : ABAcc => acc.best ≠ ⊥)
    · intro acc m' hacc
      dsimp only
      by_cases hstop : acc.stop
      · simpa [hstop] using hacc
      · simp only [hstop, Bool.false_eq_true, if_false, abStep]
        cases isMax
        · exact min_ne_bot hacc (hrec m' acc.alpha acc.beta)
        · exact max_ne_bot_left hacc
    · dsimp only
      rw [if_neg (by simp)]
      cases isMax
      · simp only [abStep, Bool.false_eq_true, if_false]
        exact min_ne_bot (by decide) (hrec m alpha beta)
      · simp only [abStep, if_true]
        intro hbad
        exact (hrec m alpha beta) (le_bot_iff.mp (hbad ▸ le_max_right _ _))

/-- `minimax` never evaluates to `-Infinity`. -/
lemma minimax_ne_bot (st : GameState) (depth : ℕ) (isMax : Bool)
    (bot human : Player) (alpha beta : Score) (limit : ℕ) :
    minimax st depth isMax bot human alpha beta limit ≠ ⊥ :=
  minimax_ne_bot_aux (limit - depth) st depth isMax bot human alpha beta limit
    le_rfl

lemma listMaxScore_cons (a : Score) (l : List Score) :
    listMaxScore (a :: l) = max a (listMaxScore l) := rfl

/-- When no candidate beats the incumbent best score, the driver loop keeps
the incumbent pair. -/
lemma foldl_bestStep_of_le (eval : Move → Score) :
    ∀ (l : List Move) (b : Score) (mv : Option Move),
      listMaxScore (l.map eval) ≤ b →
      l.foldl (bestStep eval) (b, mv) = (b, mv) := by
  intro l
  induction l with
  | nil =>
    intro b mv _
    rfl
  | cons m rest ih =>
    intro b mv h
    rw [List.map_cons, listMaxScore_cons] at h
    rw [List.foldl_cons]
    simp only [bestStep, if_neg (not_lt.2 (le_trans (le_max_left _ _) h))]
    exact ih b mv (le_trans (le_max_right _ _) h)

/-- When some candidate beats the incumbent best score, the driver loop
returns the maximal evaluation together with the first candidate attaining
it. -/
lemma foldl_bestStep_of_lt (eval : Move → Score) :
    ∀ (l : List Move) (b : Score) (mv : Option Move),
      b < listMaxScore (l.map eval) →
      l.foldl (bestStep eval) (b, mv) =
        (listMaxScore (l.map eval),
          l.find? fun m => decide (eval m = listMaxScore (l.map eval))) := by
  intro l
  induction l with
  | nil =>
    intro b mv h
    rw [List.map_nil] at h
    exact absurd h (not_lt_bot)
  | cons m rest ih =>
    intro b mv h
    rw [List.map_cons, listMaxScore_cons] at h ⊢
    rw [List.foldl_cons]
    by_cases hbm : b < eval m
    · simp only [bestStep, if_pos hbm]
      by_cases hrest : listMaxScore (rest.map eval) ≤ eval m
      · rw [max_eq_left hrest]
        rw [foldl_bestStep_of_le eval rest (eval m) (some m) hrest]
        rw [List.find?_cons_of_pos _ (by simp)]
      · push_neg at hrest
        rw [max_eq_right hrest.le]
        rw [ih (eval m) (some m) hrest]
        rw [List.find?_cons_of_neg _ (by simp [ne_of_lt hrest])]
    · push_neg at hbm
      simp only [bestStep, if_neg (not_lt.2 hbm)]
      have hlt : b < listMaxScore (rest.map eval) := by
        rcases max_cases (eval m) (listMaxScore (rest.map eval)) with ⟨he, -⟩ | ⟨he, -⟩
        · rw [he] at h
          exact absurd h (not_lt.2 hbm)
        · rwa [he] at h
      rw [max_eq_right (le_of_lt (lt_of_le_of_lt hbm hlt))]
      rw [ih b mv hlt]
      rw [List.find?_cons_of_neg _ (by simp [ne_of_lt (lt_of_le_of_lt hbm hlt)])]

/-- The maximal evaluation over a non-empty candidate list is attained. -/
lemma listMaxScore_attained (eval : Move → Score) :
    ∀ (l : List Move), l ≠ [] → ∃ m ∈ l, eval m = listMaxScore (l.map eval) := by
  intro l
  induction l with
  | nil =>
    intro h
    exact absurd rfl h
  | cons m rest ih =>
    intro _
    rw [List.map_cons, listMaxScore_cons]
    by_cases hrest : rest = []
    · subst hrest
      rw [List.map_nil]
      exact ⟨m, by simp, (max_eq_left bot_le).symm⟩
    · rcases ih hrest with ⟨m0, hm0, he0⟩
      rcases le_total (listMaxScore (rest.map eval)) (eval m) with hle | hle
      · exact ⟨m, by simp, (max_eq_left hle).symm⟩
      · exact ⟨m0, by simp [hm0], by rw [max_eq_right hle]; exact he0⟩

/-- C4.  `minimaxBestMove` returns exactly the first generated candidate
whose one-ply-ahead evaluation (minimax at depth 1, minimizing, depth limit
4) is maximal among all candidates — first-found wins ties because the
comparison is strict — and it returns `none` iff the bot's generated move
list is empty. -/
theorem minimaxBestMove_spec (st : GameState) (bot : Player) :
    minimaxBestMove st bot = firstBestMove st bot ∧
    (minimaxBestMove st bot = none ↔ generateAllMoves st bot = []) := by
  have hmain : minimaxBestMove st bot = firstBestMove st bot := by
    unfold minimaxBestMove firstBestMove bestEval
    rcases hmoves : generateAllMoves st bot with _ | ⟨m, rest⟩
    · rfl
    · have hne : evalMove st bot m ≠ ⊥ := by
        unfold evalMove
        exact minimax_ne_bot _ _ _ _ _ _ _ _
      have hlt : (⊥ : Score) <
          listMaxScore ((m :: rest).map (evalMove st bot)) := by
        rw [List.map_cons, listMaxScore_cons]
        exact lt_of_lt_of_le (Ne.bot_lt hne) (le_max_left _ _)
      rw [foldl_bestStep_of_lt (evalMove st bot) (m :: rest) ⊥ none hlt]
  refine ⟨hmain, ?_⟩
  rw [hmain]
  constructor
  · intro hnone
    by_contra hne
    rcases listMaxScore_attained (evalMove st bot) _ hne with ⟨m0, hm0, he0⟩
    unfold firstBestMove bestEval at hnone
    rw [List.find?_eq_none] at hnone
    exact absurd (by simpa using he0) (by simpa using hnone m0 hm0)
  · intro hempty
    unfold firstBestMove
    rw [hempty]
    rfl

/-- C1 witness: the apply/undo round trip at a concrete placement and a
concrete relocation, both generated at a concrete state. -/
theorem apply_undo_inverse_witness :
    (Move.place 2 Size.small ∈ generateAllMoves nearWinO Player.O ∧
      undoMoveGeneric (applyMove nearWinO (Move.place 2 Size.small) Player.O)
        (Move.place 2 Size.small) Player.O = nearWinO) ∧
    (Move.move 0 4 Size.small ∈ generateAllMoves nearWinO Player.O ∧
      undoMoveGeneric (applyMove nearWinO (Move.move 0 4 Size.small) Player.O)
        (Move.move 0 4 Size.small) Player.O = nearWinO) :=
  ⟨⟨by decide, apply_undo_inverse _ _ _ (by decide)⟩,
    ⟨by decide, apply_undo_inverse _ _ _ (by decide)⟩⟩

/-- C6 witness: the generator's membership properties at a concrete state
and concrete moves. -/
theorem generateMoves_spec_witness :
    (Move.place 2 Size.small ∈ generateAllMoves nearWinO Player.O ∧
      0 < nearWinO.piecesLeft Player.O Size.small) ∧
    (Move.move 0 4 Size.small ∈ generateAllMoves nearWinO Player.O ∧
      (0 : Fin 9) ≠ 4) :=
  ⟨⟨by decide, (generateMoves_spec nearWinO Player.O).2.2 2 Size.small (by decide)⟩,
    ⟨by decide, (generateMoves_spec nearWinO Player.O).2.1 0 4 Size.small (by decide)⟩⟩
